import Mathlib

/-!
Shallow embedding of the layered-nlp line engine (`src/ll_line.rs`):
tokens, the four-index attribute store (`LLLineAttrs`), line construction
with automatic per-token attributes (`LLLine::new`), resolver execution
(`LLLine::run`), attribute insertion (`LLLineAttrs::insert`,
`LLLine::add_any_attrs`), typed query (`LLLine::query`) and pattern
search (`LLLine::find`).

Rust panics (`expect`, out-of-bounds slice indexing, `HashMap` index on a
missing key) are embedded as `Except String`, carrying the diagnostic
message. Rust's type-erased attribute machinery (`TypeId` plus `Any`
downcasting) is embedded as a closed universe `AttrValue` of attribute
values together with their runtime type identifier `AttrType`: `char`
attributes and `TextTag` attributes are the two types auto-inserted by
construction, and `custom id payload` stands for an arbitrary
resolver-supplied attribute type (distinct `id`s are distinct Rust types,
`payload` distinguishes values of one type).
-/

/-- Classification tag assigned to every text token (`TextTag` in the source). -/
inductive TextTag where
  | NATN
  | PUNC
  | SYMB
  | SPACE
  | WORD
  deriving DecidableEq

/-- A token: a text span with a tag, or an opaque value placeholder
(`LToken` in the source). Text is embedded as its character list, so
Rust's `text.chars().count()` is `text.length`. -/
inductive LToken where
  | Text (text : List Char) (tag : TextTag)
  | Value
  deriving DecidableEq

/-- A positioned token (`LLToken`): token plus its index and its character
position span in the original text. -/
structure LLToken where
  token_idx : Nat
  pos_starts_at : Nat
  pos_ends_at : Nat
  token : LToken
  deriving DecidableEq

/-- Inclusive `(starts at, ends at)` pair of token indexes (`LRange`). -/
abbrev LRange : Type := Nat × Nat

/-- Runtime type identifier of an attribute value (Rust's `TypeId`). -/
inductive AttrType where
  | charT
  | tagT
  | customT (id : Nat)
  deriving DecidableEq

/-- A type-erased attribute value (Rust's boxed `Any` value): a `char`, a
`TextTag`, or a value of an arbitrary resolver-supplied type. -/
inductive AttrValue where
  | char (c : Char)
  | tag (t : TextTag)
  | custom (id : Nat) (payload : Nat)
  deriving DecidableEq

/-- The runtime type identifier of a value (Rust's `value.type_id()`). -/
def AttrValue.type_id : AttrValue → AttrType
  | .char _ => .charT
  | .tag _ => .tagT
  | .custom id _ => .customT id

/-- Modelled from the spec (§4.1), source module `type_id_to_many` is not
under `src/`: a mapping from a runtime type identifier to the ranges
recorded under it. `insert_distinct`/`insert_any_distinct` add a
`(type, range)` pair unless that exact pair is already present
(idempotent); `get` returns all ranges recorded under a type, in
insertion order. Entries are kept as one insertion-ordered list. -/
structure TypeIdToMany where
  entries : List (AttrType × LRange)
  deriving DecidableEq

/-- Add `range` under `tid` unless the exact `(tid, range)` pair is
already present. After type erasure the typed `insert_distinct::<T>` and
the runtime-typed `insert_any_distinct(type_id, range)` coincide. -/
def TypeIdToMany.insert_any_distinct (m : TypeIdToMany) (tid : AttrType) (r : LRange) :
    TypeIdToMany :=
  if (tid, r) ∈ m.entries then m else ⟨m.entries ++ [(tid, r)]⟩

/-- All ranges recorded under `tid`, in insertion order. -/
def TypeIdToMany.get (m : TypeIdToMany) (tid : AttrType) : List LRange :=
  (m.entries.filter (fun e => decide (e.1 = tid))).map (fun e => e.2)

/-- Modelled from the spec (§4.2), source module `type_bucket` is not
under `src/`: a per-range container of attribute values of possibly
several types. `insert`/`insert_any_attribute` append (no deduplication);
`get` returns all values of one type in insertion order, empty if none. -/
structure TypeBucket where
  values : List AttrValue
  deriving DecidableEq

/-- Append a value to the bucket (`insert`/`insert_any_attribute`). -/
def TypeBucket.insert (b : TypeBucket) (v : AttrValue) : TypeBucket :=
  ⟨b.values ++ [v]⟩

/-- All values of type `tid` in the bucket, in insertion order. -/
def TypeBucket.get (b : TypeBucket) (tid : AttrType) : List AttrValue :=
  b.values.filter (fun v => decide (v.type_id = tid))

/-- Lookup in the `values` map (`HashMap<LRange, TypeBucket>`), embedded
as an association list; the map is only ever indexed, never iterated, so
entry order is irrelevant. -/
def bucketFor (vs : List (LRange × TypeBucket)) (r : LRange) : Option TypeBucket :=
  match vs with
  | [] => none
  | (r', b) :: rest => if r' = r then some b else bucketFor rest r

/-- Rust's `values.entry(range).or_default().insert(value)`: append
`v` to the bucket of `r`, creating an empty bucket first if absent. -/
def insertValueAt (vs : List (LRange × TypeBucket)) (r : LRange) (v : AttrValue) :
    List (LRange × TypeBucket) :=
  match vs with
  | [] => [(r, TypeBucket.insert ⟨[]⟩ v)]
  | (r', b) :: rest =>
    if r' = r then (r', b.insert v) :: rest else (r', b) :: insertValueAt rest r v

/-- The four co-indexes of the attribute store (`LLLineAttrs`). -/
structure LLLineAttrs where
  ranges : TypeIdToMany
  starts_at : List TypeIdToMany
  ends_at : List TypeIdToMany
  values : List (LRange × TypeBucket)
  deriving DecidableEq

/-- The single insertion path (`LLLineAttrs::insert`): update
`starts_at[range.0]` (panic if out of bounds), `ends_at[range.1]` (panic
if out of bounds), the global `ranges` index, and the value bucket of
`range`, in that order. `LLLine::add_any_attrs` performs the same four
updates per attribute with `insert_any_distinct`/`insert_any_attribute`,
which coincide with the typed variants after type erasure. -/
def LLLineAttrs.insert (a : LLLineAttrs) (range : LRange) (value : AttrValue) :
    Except String LLLineAttrs :=
  match a.starts_at[range.1]? with
  | none => Except.error "has initial starts_at value in bounds"
  | some s =>
    match a.ends_at[range.2]? with
    | none => Except.error "has initial ends_at value in bounds"
    | some e =>
      Except.ok
        { ranges := a.ranges.insert_any_distinct value.type_id range
          starts_at := a.starts_at.set range.1 (s.insert_any_distinct value.type_id range)
          ends_at := a.ends_at.set range.2 (e.insert_any_distinct value.type_id range)
          values := insertValueAt a.values range value }

/-- The annotated line (`LLLine`): the token sequence plus the store. -/
structure LLLine where
  ll_tokens : List LLToken
  attrs : LLLineAttrs
  deriving DecidableEq

/-- One iteration of the auto-annotating loop in `LLLine::new`: a text
token of exactly one character gets that character inserted on `(i,i)`;
every text token gets its tag inserted on `(i,i)`; a `Value` token gets
nothing. -/
def autoInsert (a : LLLineAttrs) (token_idx : Nat) (tok : LToken) :
    Except String LLLineAttrs :=
  match tok with
  | .Text text tag => do
    let a ←
      match text with
      | [c] => a.insert (token_idx, token_idx) (.char c)
      | _ => Except.ok a
    a.insert (token_idx, token_idx) (.tag tag)
  | .Value => Except.ok a

/-- The `for (token_idx, ll_token) in ll_tokens.iter().enumerate()` loop
of `LLLine::new`, starting at index `idx`. -/
def autoFold (a : LLLineAttrs) (idx : Nat) : List LLToken → Except String LLLineAttrs
  | [] => Except.ok a
  | t :: ts => do autoFold (← autoInsert a idx t.token) (idx + 1) ts

/-- The store as first built by `LLLine::new`: one empty (default)
`starts_at` and `ends_at` slot per token index, empty `ranges` index,
empty `values` map. -/
def initAttrs (n : Nat) : LLLineAttrs :=
  { ranges := ⟨[]⟩
    starts_at := List.replicate n ⟨[]⟩
    ends_at := List.replicate n ⟨[]⟩
    values := [] }

/-- The constructor (`LLLine::new`): allocate one empty `starts_at` and
one empty `ends_at` slot per token, then run the auto-annotating loop
over all tokens in index order. -/
def LLLine.new (ll_tokens : List LLToken) : Except String LLLine := do
  let attrs ← autoFold (initAttrs ll_tokens.length) 0 ll_tokens
  Except.ok { ll_tokens := ll_tokens, attrs := attrs }

/-- Insertion lifted to the line: `self.attrs.insert(range, value)`. -/
def LLLine.insertAttr (line : LLLine) (r : LRange) (v : AttrValue) : Except String LLLine := do
  let a ← line.attrs.insert r v
  Except.ok { line with attrs := a }

/-- Runtime-typed bulk insertion (`LLLine::add_any_attrs`): every
attribute of the list is inserted on `(start_idx, end_idx)` through the
same four index updates as `LLLineAttrs::insert` (the `insert_any_*`
variants coincide with the typed ones after type erasure); the per-token
`expect`s fire inside the loop, so an empty list never panics. -/
def LLLine.add_any_attrs (line : LLLine) (start_idx : Nat) (end_idx : Nat)
    (attrs : List AttrValue) : Except String LLLine := do
  let a ← attrs.foldlM (fun acc v => acc.insert (start_idx, end_idx) v) line.attrs
  Except.ok { line with attrs := a }

/-- A selection (`LLSelection`): a handle on one line plus an inclusive
token-index window. -/
structure LLSelection where
  ll_line : LLLine
  start_idx : Nat
  end_idx : Nat

/-- A pending assignment produced by a resolver (`LLCursorAssignment`). -/
structure LLCursorAssignment where
  start_idx : Nat
  end_idx : Nat
  value : AttrValue

/-- The resolver protocol (`Resolver`): one operation taking a selection
and returning the ordered list of pending assignments. -/
structure Resolver where
  go : LLSelection → List LLCursorAssignment

/-- Resolver execution (`LLLine::run`): an empty line is returned
unchanged without consulting the resolver; otherwise the resolver
receives a selection spanning `(0, len - 1)` and each returned
assignment is merged, in order, through `LLLineAttrs::insert`. The
`Rc` sharing and reclaim around the resolver call is a Rust aliasing
mechanism with no observable effect on the resulting data. -/
def LLLine.run (line : LLLine) (recognizer : Resolver) : Except String LLLine :=
  if line.ll_tokens.isEmpty then Except.ok line
  else do
    let assignments := recognizer.go
      { ll_line := line, start_idx := 0, end_idx := line.ll_tokens.length - 1 }
    assignments.foldlM (fun l a => l.insertAttr (a.start_idx, a.end_idx) a.value) line

/-- The text contributed by one token to a reconstructed substring: a
text token contributes its text, a `Value` token the empty string. -/
def tokenText : LToken → List Char
  | .Text text _ => text
  | .Value => []

/-- Rust inclusive slice indexing `v[a..=b]`, which panics unless
`a ≤ b + 1` and `b + 1 ≤ v.len()`. -/
def sliceIncl {α : Type} (v : List α) (a b : Nat) : Except String (List α) :=
  if a ≤ b + 1 ∧ b + 1 ≤ v.length then Except.ok ((v.drop a).take (b + 1 - a))
  else Except.error "slice index out of range"

/-- Typed query (`LLLine::query`): for every range recorded under `T` in
the global `ranges` index, in that index's order, pair the range with the
concatenated text of the covered tokens (`ll_tokens[range.0..=range.1]`,
a panicking slice) and with every value of type `T` in the range's bucket
(`values[range]`, a panicking map index). -/
def LLLine.query (line : LLLine) (T : AttrType) :
    Except String (List (LRange × List Char × List AttrValue)) :=
  (line.attrs.ranges.get T).mapM (fun range => do
    let toks ← sliceIncl line.ll_tokens range.1 range.2
    let text := (toks.map (fun t => tokenText t.token)).flatten
    match bucketFor line.attrs.values range with
    | some b => Except.ok (range, text, b.get T)
    | none => Except.error "no entry found for key")

/-- A search result (`LLLineFind`): a character-position span plus the
matched value. -/
structure LLLineFind (Found : Type) where
  start_pos_at : Nat
  end_pos_at : Nat
  found : Found
  deriving DecidableEq

/-- Token index to its starting character position (`LLLine::pos_start_at`,
panics out of bounds). -/
def LLLine.pos_start_at (line : LLLine) (idx : Nat) : Except String Nat :=
  match line.ll_tokens[idx]? with
  | some t => Except.ok t.pos_starts_at
  | none => Except.error "pos_start_at in bounds"

/-- Token index to its ending character position (`LLLine::pos_end_at`,
panics out of bounds). -/
def LLLine.pos_end_at (line : LLLine) (idx : Nat) : Except String Nat :=
  match line.ll_tokens[idx]? with
  | some t => Except.ok t.pos_ends_at
  | none => Except.error "pos_end_at in bounds"

/-- Pattern search (`LLLine::find`). A matcher is embedded as its `go`
operation applied to a forward cursor: from the anchor index and the line
it yields the finite list of `(out, next_idx)` pairs (the `XMatch` trait
itself lives in module `x`, outside `src/`; the spec's §4.6 matching
contract gives exactly this shape). `find` anchors a cursor at every
token index in order and converts every yielded pair to character
positions: start of token `i`, end of token `next_idx`. -/
def LLLine.find {Out : Type} (line : LLLine) (matcher : Nat → LLLine → List (Out × Nat)) :
    Except String (List (LLLineFind Out)) := do
  let nested ← (List.range line.ll_tokens.length).mapM (fun i =>
    (matcher i line).mapM (fun p => do
      let s ← line.pos_start_at i
      let e ← line.pos_end_at p.2
      Except.ok ({ start_pos_at := s, end_pos_at := e, found := p.1 } : LLLineFind Out)))
  Except.ok nested.flatten

/-! Lemmas about the index primitives. -/

theorem TypeIdToMany.mem_insert_any_distinct (m : TypeIdToMany) (tid : AttrType) (r : LRange)
    (p : AttrType × LRange) :
    p ∈ (m.insert_any_distinct tid r).entries ↔ p ∈ m.entries ∨ p = (tid, r) := by
  by_cases h : (tid, r) ∈ m.entries
  · simp only [insert_any_distinct, if_pos h]
    constructor
    · exact Or.inl
    · rintro (hp | rfl)
      · exact hp
      · exact h
  · simp [insert_any_distinct, if_neg h, List.mem_append]

theorem TypeIdToMany.mem_get (m : TypeIdToMany) (tid : AttrType) (r : LRange) :
    r ∈ m.get tid ↔ (tid, r) ∈ m.entries := by
  unfold get
  simp only [List.mem_map, List.mem_filter, decide_eq_true_eq]
  constructor
  · rintro ⟨⟨t, s⟩, ⟨hm, ht⟩, hr⟩
    obtain rfl : t = tid := ht
    obtain rfl : s = r := hr
    exact hm
  · intro h
    exact ⟨(tid, r), ⟨h, rfl⟩, rfl⟩

theorem bucketFor_insertValueAt_self (vs : List (LRange × TypeBucket)) (r : LRange)
    (v : AttrValue) :
    bucketFor (insertValueAt vs r v) r =
      some ⟨((bucketFor vs r).getD ⟨[]⟩).values ++ [v]⟩ := by
  induction vs with
  | nil => simp [insertValueAt, bucketFor, TypeBucket.insert]
  | cons hd tl ih =>
    obtain ⟨k, b⟩ := hd
    by_cases h : k = r
    · subst h
      simp [insertValueAt, bucketFor, TypeBucket.insert]
    · simp [insertValueAt, bucketFor, h, ih]

theorem bucketFor_insertValueAt_ne (vs : List (LRange × TypeBucket)) (r r' : LRange)
    (v : AttrValue) (h : r' ≠ r) :
    bucketFor (insertValueAt vs r v) r' = bucketFor vs r' := by
  induction vs with
  | nil => simp [insertValueAt, bucketFor, Ne.symm h]
  | cons hd tl ih =>
    obtain ⟨k, b⟩ := hd
    by_cases hk : k = r
    · subst hk
      simp [insertValueAt, bucketFor, Ne.symm h]
    · by_cases hk' : k = r'
      · subst hk'
        simp [insertValueAt, bucketFor, hk]
      · simp [insertValueAt, bucketFor, hk, hk', ih]

/-- Successful insertion, unfolded: both per-token slots exist and all
four indexes are updated. -/
theorem LLLineAttrs.insert_eq_ok {a : LLLineAttrs} {r : LRange} {v : AttrValue}
    {a' : LLLineAttrs} (h : a.insert r v = Except.ok a') :
    ∃ s e, a.starts_at[r.1]? = some s ∧ a.ends_at[r.2]? = some e ∧
      a' = { ranges := a.ranges.insert_any_distinct v.type_id r
             starts_at := a.starts_at.set r.1 (s.insert_any_distinct v.type_id r)
             ends_at := a.ends_at.set r.2 (e.insert_any_distinct v.type_id r)
             values := insertValueAt a.values r v } := by
  unfold insert at h
  split at h
  · exact absurd h (fun hh => Except.noConfusion hh)
  · rename_i s hs
    split at h
    · exact absurd h (fun hh => Except.noConfusion hh)
    · rename_i e he
      injection h with h2
      exact ⟨s, e, hs, he, h2.symm⟩

/-- Successful insertion, the other direction: in-bounds slots mean the
insertion returns the updated store. -/
theorem LLLineAttrs.insert_of_some {a : LLLineAttrs} {r : LRange} {v : AttrValue}
    {s e : TypeIdToMany} (hs : a.starts_at[r.1]? = some s) (he : a.ends_at[r.2]? = some e) :
    a.insert r v = Except.ok
      { ranges := a.ranges.insert_any_distinct v.type_id r
        starts_at := a.starts_at.set r.1 (s.insert_any_distinct v.type_id r)
        ends_at := a.ends_at.set r.2 (e.insert_any_distinct v.type_id r)
        values := insertValueAt a.values r v } := by
  unfold insert
  rw [hs, he]

theorem LLLineAttrs.insert_starts_oob {a : LLLineAttrs} {r : LRange} {v : AttrValue}
    (hs : a.starts_at.length ≤ r.1) :
    a.insert r v = Except.error "has initial starts_at value in bounds" := by
  unfold insert
  rw [List.getElem?_eq_none hs]

theorem LLLineAttrs.insert_ends_oob {a : LLLineAttrs} {r : LRange} {v : AttrValue}
    {s : TypeIdToMany} (hs : a.starts_at[r.1]? = some s) (he : a.ends_at.length ≤ r.2) :
    a.insert r v = Except.error "has initial ends_at value in bounds" := by
  unfold insert
  rw [hs, List.getElem?_eq_none he]

theorem LLLineAttrs.insert_lengths {a : LLLineAttrs} {r : LRange} {v : AttrValue}
    {a' : LLLineAttrs} (h : a.insert r v = Except.ok a') :
    a'.starts_at.length = a.starts_at.length ∧ a'.ends_at.length = a.ends_at.length := by
  obtain ⟨s, e, hs, he, rfl⟩ := insert_eq_ok h
  simp [List.length_set]

/-! The four-index consistency invariant (spec §3). -/

/-- Type `T` carries range `r` in the global `ranges` index. -/
def inRanges (a : LLLineAttrs) (T : AttrType) (r : LRange) : Prop :=
  (T, r) ∈ a.ranges.entries

/-- Type `T` carries range `r` in the `starts_at[r.0]` index. -/
def inStarts (a : LLLineAttrs) (T : AttrType) (r : LRange) : Prop :=
  ∃ m, a.starts_at[r.1]? = some m ∧ (T, r) ∈ m.entries

/-- Type `T` carries range `r` in the `ends_at[r.1]` index. -/
def inEnds (a : LLLineAttrs) (T : AttrType) (r : LRange) : Prop :=
  ∃ m, a.ends_at[r.2]? = some m ∧ (T, r) ∈ m.entries

/-- The value bucket of `r` holds at least one value of type `T`. -/
def hasValue (a : LLLineAttrs) (T : AttrType) (r : LRange) : Prop :=
  ∃ b, bucketFor a.values r = some b ∧ ∃ v, v ∈ b.values ∧ v.type_id = T

/-- The mutual-consistency invariant of the four co-indexes: an attribute
of type `T` on range `r` is recorded in the global ranges index iff it is
recorded in the per-start index, iff in the per-end index, iff a value of
that type sits in the range's bucket. -/
def Consistent (a : LLLineAttrs) : Prop :=
  ∀ T r, (inRanges a T r ↔ inStarts a T r) ∧ (inRanges a T r ↔ inEnds a T r) ∧
    (inRanges a T r ↔ hasValue a T r)

theorem inRanges_insert {a : LLLineAttrs} {r0 : LRange} {v : AttrValue} {a' : LLLineAttrs}
    (h : a.insert r0 v = Except.ok a') (T : AttrType) (r : LRange) :
    inRanges a' T r ↔ inRanges a T r ∨ (T = v.type_id ∧ r = r0) := by
  obtain ⟨s, e, hs, he, rfl⟩ := LLLineAttrs.insert_eq_ok h
  unfold inRanges
  simp [TypeIdToMany.mem_insert_any_distinct, Prod.ext_iff]

theorem inStarts_insert {a : LLLineAttrs} {r0 : LRange} {v : AttrValue} {a' : LLLineAttrs}
    (h : a.insert r0 v = Except.ok a') (T : AttrType) (r : LRange) :
    inStarts a' T r ↔ inStarts a T r ∨ (T = v.type_id ∧ r = r0) := by
  obtain ⟨s, e, hs, he, rfl⟩ := LLLineAttrs.insert_eq_ok h
  have hlen : r0.1 < a.starts_at.length := (List.getElem?_eq_some.mp hs).1
  unfold inStarts
  by_cases hi : r0.1 = r.1
  · have hset : (a.starts_at.set r0.1 (s.insert_any_distinct v.type_id r0))[r.1]? =
        some (s.insert_any_distinct v.type_id r0) := by
      rw [← hi]
      exact List.getElem?_set_eq_of_lt _ hlen
    have hs' : a.starts_at[r.1]? = some s := by rw [← hi]; exact hs
    simp [hset, hs', TypeIdToMany.mem_insert_any_distinct, Prod.ext_iff]
  · have hset : (a.starts_at.set r0.1 (s.insert_any_distinct v.type_id r0))[r.1]? =
        a.starts_at[r.1]? := List.getElem?_set_ne hi
    simp only [hset]
    constructor
    · exact Or.inl
    · rintro (hh | ⟨hT, rfl⟩)
      · exact hh
      · exact absurd rfl hi

theorem inEnds_insert {a : LLLineAttrs} {r0 : LRange} {v : AttrValue} {a' : LLLineAttrs}
    (h : a.insert r0 v = Except.ok a') (T : AttrType) (r : LRange) :
    inEnds a' T r ↔ inEnds a T r ∨ (T = v.type_id ∧ r = r0) := by
  obtain ⟨s, e, hs, he, rfl⟩ := LLLineAttrs.insert_eq_ok h
  have hlen : r0.2 < a.ends_at.length := (List.getElem?_eq_some.mp he).1
  unfold inEnds
  by_cases hi : r0.2 = r.2
  · have hset : (a.ends_at.set r0.2 (e.insert_any_distinct v.type_id r0))[r.2]? =
        some (e.insert_any_distinct v.type_id r0) := by
      rw [← hi]
      exact List.getElem?_set_eq_of_lt _ hlen
    have he' : a.ends_at[r.2]? = some e := by rw [← hi]; exact he
    simp [hset, he', TypeIdToMany.mem_insert_any_distinct, Prod.ext_iff]
  · have hset : (a.ends_at.set r0.2 (e.insert_any_distinct v.type_id r0))[r.2]? =
        a.ends_at[r.2]? := List.getElem?_set_ne hi
    simp only [hset]
    constructor
    · exact Or.inl
    · rintro (hh | ⟨hT, rfl⟩)
      · exact hh
      · exact absurd rfl hi

theorem hasValue_insert {a : LLLineAttrs} {r0 : LRange} {v : AttrValue} {a' : LLLineAttrs}
    (h : a.insert r0 v = Except.ok a') (T : AttrType) (r : LRange) :
    hasValue a' T r ↔ hasValue a T r ∨ (T = v.type_id ∧ r = r0) := by
  obtain ⟨s, e, hs, he, rfl⟩ := LLLineAttrs.insert_eq_ok h
  unfold hasValue
  by_cases hr : r = r0
  · subst hr
    show (∃ b, bucketFor (insertValueAt a.values r v) r = some b ∧
        ∃ w, w ∈ b.values ∧ w.type_id = T) ↔ _
    rw [bucketFor_insertValueAt_self]
    constructor
    · rintro ⟨b', hb', w, hw, hT⟩
      obtain rfl : (⟨((bucketFor a.values r).getD ⟨[]⟩).values ++ [v]⟩ : TypeBucket) = b' :=
        Option.some.inj hb'
      rcases List.mem_append.mp hw with h1 | h2
      · cases hb : bucketFor a.values r with
        | none =>
          simp only [hb, Option.getD_none] at h1
          simp at h1
        | some b0 =>
          simp only [hb, Option.getD_some] at h1
          exact Or.inl ⟨b0, rfl, w, h1, hT⟩
      · have hwv : w = v := by simpa using h2
        subst hwv
        exact Or.inr ⟨hT.symm, rfl⟩
    · rintro (⟨b0, hb0, w, hw, hT⟩ | ⟨hT, _⟩)
      · refine ⟨_, rfl, w, ?_, hT⟩
        show w ∈ ((bucketFor a.values r).getD ⟨[]⟩).values ++ [v]
        rw [hb0, Option.getD_some]
        exact List.mem_append.mpr (Or.inl hw)
      · refine ⟨_, rfl, v, ?_, hT.symm⟩
        show v ∈ ((bucketFor a.values r).getD ⟨[]⟩).values ++ [v]
        exact List.mem_append.mpr (Or.inr (by simp))
  · show (∃ b, bucketFor (insertValueAt a.values r0 v) r = some b ∧ _) ↔ _
    rw [bucketFor_insertValueAt_ne _ _ _ _ hr]
    constructor
    · exact Or.inl
    · rintro (hh | ⟨hT, rfl⟩)
      · exact hh
      · exact absurd rfl hr

/-- The single insertion path updates all four indexes together, so it
preserves the consistency invariant. -/
theorem Consistent.insert {a : LLLineAttrs} {r : LRange} {v : AttrValue} {a' : LLLineAttrs}
    (hc : Consistent a) (h : a.insert r v = Except.ok a') : Consistent a' := by
  intro T r'
  obtain ⟨h1, h2, h3⟩ := hc T r'
  rw [inRanges_insert h, inStarts_insert h, inEnds_insert h, hasValue_insert h]
  exact ⟨or_congr_left h1, or_congr_left h2, or_congr_left h3⟩

/-! Destructors for the `Except`-valued operations and generic
preservation of a property along fallible folds. -/

theorem LLLine.insertAttr_eq_ok {line : LLLine} {r : LRange} {v : AttrValue} {line' : LLLine}
    (h : line.insertAttr r v = Except.ok line') :
    ∃ a', line.attrs.insert r v = Except.ok a' ∧
      line' = { ll_tokens := line.ll_tokens, attrs := a' } := by
  unfold insertAttr at h
  cases ha : line.attrs.insert r v with
  | error s =>
    rw [ha] at h
    simp [Bind.bind, Except.bind] at h
  | ok a1 =>
    rw [ha] at h
    have h2 : (Except.ok { line with attrs := a1 } : Except String LLLine) =
        Except.ok line' := h
    injection h2 with h3
    exact ⟨a1, rfl, h3.symm⟩

theorem LLLine.insertAttr_of_ok {line : LLLine} {r : LRange} {v : AttrValue} {a' : LLLineAttrs}
    (h : line.attrs.insert r v = Except.ok a') :
    line.insertAttr r v = Except.ok { ll_tokens := line.ll_tokens, attrs := a' } := by
  unfold insertAttr
  rw [h]
  rfl

theorem LLLine.add_any_attrs_eq_ok {line : LLLine} {s e : Nat} {vs : List AttrValue}
    {line' : LLLine} (h : line.add_any_attrs s e vs = Except.ok line') :
    ∃ a', vs.foldlM (fun acc v => acc.insert (s, e) v) line.attrs = Except.ok a' ∧
      line' = { ll_tokens := line.ll_tokens, attrs := a' } := by
  unfold add_any_attrs at h
  cases ha : vs.foldlM (fun acc v => acc.insert (s, e) v) line.attrs with
  | error msg =>
    rw [ha] at h
    simp [Bind.bind, Except.bind] at h
  | ok a1 =>
    rw [ha] at h
    have h2 : (Except.ok { line with attrs := a1 } : Except String LLLine) =
        Except.ok line' := h
    injection h2 with h3
    exact ⟨a1, rfl, h3.symm⟩

theorem LLLine.new_eq_ok {toks : List LLToken} {line : LLLine}
    (h : LLLine.new toks = Except.ok line) :
    ∃ a, autoFold (initAttrs toks.length) 0 toks = Except.ok a ∧
      line = { ll_tokens := toks, attrs := a } := by
  unfold new at h
  cases ha : autoFold (initAttrs toks.length) 0 toks with
  | error msg =>
    rw [ha] at h
    simp [Bind.bind, Except.bind] at h
  | ok a1 =>
    rw [ha] at h
    have h2 : (Except.ok { ll_tokens := toks, attrs := a1 } : Except String LLLine) =
        Except.ok line := h
    injection h2 with h3
    exact ⟨a1, rfl, h3.symm⟩

/-- A resolver run on a non-empty line merges the resolver's assignments
over the whole-line selection, in order, through the insertion path. -/
theorem LLLine.run_eq_of_ne {line : LLLine} (R : Resolver) (h : line.ll_tokens ≠ []) :
    line.run R =
      (R.go { ll_line := line, start_idx := 0, end_idx := line.ll_tokens.length - 1 }).foldlM
        (fun l a => l.insertAttr (a.start_idx, a.end_idx) a.value) line := by
  unfold run
  split
  · rename_i hemp
    exact absurd (List.isEmpty_iff.mp hemp) h
  · rfl

theorem LLLine.run_empty {line : LLLine} (R : Resolver) (h : line.ll_tokens = []) :
    line.run R = Except.ok line := by
  unfold run
  rw [if_pos]
  simp [h]

/-- Fallible left fold preserves any property preserved by each step. -/
theorem foldlM_except_pres {α β : Type} (P : β → Prop) :
    ∀ (xs : List α) (f : β → α → Except String β) (b b' : β),
      (∀ l x l', x ∈ xs → P l → f l x = Except.ok l' → P l') →
      P b → xs.foldlM f b = Except.ok b' → P b' := by
  intro xs
  induction xs with
  | nil =>
    intro f b b' _ hP h
    rw [List.foldlM_nil] at h
    simp only [pure, Except.pure] at h
    injection h with h2
    subst h2
    exact hP
  | cons x xs ih =>
    intro f b b' hf hP h
    rw [List.foldlM_cons] at h
    cases hfx : f b x with
    | error s =>
      rw [hfx] at h
      simp [Bind.bind, Except.bind] at h
    | ok b1 =>
      rw [hfx] at h
      have h' : xs.foldlM f b1 = Except.ok b' := h
      exact ih f b1 b' (fun l y l' hy => hf l y l' (List.mem_cons_of_mem _ hy))
        (hf b x b1 (List.mem_cons_self _ _) hP hfx) h'

/-- One auto-annotating step preserves any property preserved by
insertion at a singleton range. -/
theorem autoInsert_pres (P : LLLineAttrs → Prop)
    (hstep : ∀ a i v a', P a → a.insert (i, i) v = Except.ok a' → P a') :
    ∀ (a : LLLineAttrs) (idx : Nat) (tok : LToken) (a' : LLLineAttrs),
      P a → autoInsert a idx tok = Except.ok a' → P a' := by
  intro a idx tok a' hP h
  cases tok with
  | Value =>
    unfold autoInsert at h
    injection h with h2
    subst h2
    exact hP
  | Text text tag =>
    unfold autoInsert at h
    cases text with
    | nil =>
      have h' : a.insert (idx, idx) (.tag tag) = Except.ok a' := h
      exact hstep a idx _ a' hP h'
    | cons c cs =>
      cases cs with
      | nil =>
        have h0 : (do
            let amid ← a.insert (idx, idx) (.char c)
            amid.insert (idx, idx) (.tag tag)) = Except.ok a' := h
        cases hc : a.insert (idx, idx) (.char c) with
        | error s =>
          rw [hc] at h0
          simp [Bind.bind, Except.bind] at h0
        | ok amid =>
          rw [hc] at h0
          have h' : amid.insert (idx, idx) (.tag tag) = Except.ok a' := h0
          exact hstep amid idx _ a' (hstep a idx _ amid hP hc) h'
      | cons c2 cs2 =>
        have h' : a.insert (idx, idx) (.tag tag) = Except.ok a' := h
        exact hstep a idx _ a' hP h'

/-- The whole auto-annotating loop preserves any property preserved by
insertion at a singleton range. -/
theorem autoFold_pres (P : LLLineAttrs → Prop)
    (hstep : ∀ a i v a', P a → a.insert (i, i) v = Except.ok a' → P a') :
    ∀ (toks : List LLToken) (idx : Nat) (a a' : LLLineAttrs),
      P a → autoFold a idx toks = Except.ok a' → P a' := by
  intro toks
  induction toks with
  | nil =>
    intro idx a a' hP h
    unfold autoFold at h
    injection h with h2
    subst h2
    exact hP
  | cons t ts ih =>
    intro idx a a' hP h
    unfold autoFold at h
    cases h1 : autoInsert a idx t.token with
    | error s =>
      rw [h1] at h
      simp [Bind.bind, Except.bind] at h
    | ok a1 =>
      rw [h1] at h
      have h' : autoFold a1 (idx + 1) ts = Except.ok a' := h
      exact ih (idx + 1) a1 a' (autoInsert_pres P hstep a idx t.token a1 hP h1) h'

/-! Reachable lines and their invariants. -/

/-- The freshly allocated store is consistent (everything empty). -/
theorem consistent_initAttrs (n : Nat) : Consistent (initAttrs n) := by
  intro T r
  have h1 : ¬ inRanges (initAttrs n) T r := by simp [inRanges, initAttrs]
  have h2 : ¬ inStarts (initAttrs n) T r := by
    rintro ⟨m, hm, hmem⟩
    rw [initAttrs] at hm
    rw [List.getElem?_replicate] at hm
    by_cases hlt : r.1 < n
    · rw [if_pos hlt] at hm
      injection hm with hm2
      subst hm2
      simp at hmem
    · rw [if_neg hlt] at hm
      exact Option.noConfusion hm
  have h3 : ¬ inEnds (initAttrs n) T r := by
    rintro ⟨m, hm, hmem⟩
    rw [initAttrs] at hm
    rw [List.getElem?_replicate] at hm
    by_cases hlt : r.2 < n
    · rw [if_pos hlt] at hm
      injection hm with hm2
      subst hm2
      simp at hmem
    · rw [if_neg hlt] at hm
      exact Option.noConfusion hm
  have h4 : ¬ hasValue (initAttrs n) T r := by
    rintro ⟨b, hb, _⟩
    rw [initAttrs] at hb
    exact Option.noConfusion hb
  exact ⟨iff_of_false h1 h2, iff_of_false h1 h3, iff_of_false h1 h4⟩

/-- The two per-token index arrays keep one slot per token. -/
def WellFormed (line : LLLine) : Prop :=
  line.attrs.starts_at.length = line.ll_tokens.length ∧
    line.attrs.ends_at.length = line.ll_tokens.length

/-- Lines reachable through the public construction and insertion paths:
`LLLine::new`, direct insertion, `add_any_attrs`, and `run` with any
resolver — exactly the mutation surface of the engine. -/
inductive Reachable : LLLine → Prop where
  | construct (toks : List LLToken) (line : LLLine) :
      LLLine.new toks = Except.ok line → Reachable line
  | insertStep (line : LLLine) (r : LRange) (v : AttrValue) (line' : LLLine) :
      Reachable line → line.insertAttr r v = Except.ok line' → Reachable line'
  | addAnyStep (line : LLLine) (s e : Nat) (vs : List AttrValue) (line' : LLLine) :
      Reachable line → line.add_any_attrs s e vs = Except.ok line' → Reachable line'
  | runStep (line : LLLine) (R : Resolver) (line' : LLLine) :
      Reachable line → line.run R = Except.ok line' → Reachable line'

theorem good_insertAttr {line line' : LLLine} {r : LRange} {v : AttrValue}
    (hg : WellFormed line ∧ Consistent line.attrs)
    (h : line.insertAttr r v = Except.ok line') :
    WellFormed line' ∧ Consistent line'.attrs := by
  obtain ⟨a', ha, rfl⟩ := LLLine.insertAttr_eq_ok h
  obtain ⟨hl1, hl2⟩ := LLLineAttrs.insert_lengths ha
  exact ⟨⟨by rw [hl1]; exact hg.1.1, by rw [hl2]; exact hg.1.2⟩, hg.2.insert ha⟩

theorem good_new {toks : List LLToken} {line : LLLine}
    (h : LLLine.new toks = Except.ok line) :
    WellFormed line ∧ Consistent line.attrs := by
  obtain ⟨a, ha, rfl⟩ := LLLine.new_eq_ok h
  have hfold :
      (fun x : LLLineAttrs => x.starts_at.length = toks.length ∧
        x.ends_at.length = toks.length ∧ Consistent x) a := by
    refine autoFold_pres
      (fun x : LLLineAttrs => x.starts_at.length = toks.length ∧
        x.ends_at.length = toks.length ∧ Consistent x)
      ?_ toks 0 (initAttrs toks.length) a
      ⟨by simp [initAttrs], by simp [initAttrs], consistent_initAttrs _⟩ ha
    intro a0 i v a1 hP h1
    obtain ⟨hl1, hl2⟩ := LLLineAttrs.insert_lengths h1
    exact ⟨hl1.trans hP.1, hl2.trans hP.2.1, hP.2.2.insert h1⟩
  exact ⟨⟨hfold.1, hfold.2.1⟩, hfold.2.2⟩

theorem good_add_any {line line' : LLLine} {s e : Nat} {vs : List AttrValue}
    (hg : WellFormed line ∧ Consistent line.attrs)
    (h : line.add_any_attrs s e vs = Except.ok line') :
    WellFormed line' ∧ Consistent line'.attrs := by
  obtain ⟨a', ha, rfl⟩ := LLLine.add_any_attrs_eq_ok h
  have hfold :
      (fun x : LLLineAttrs => x.starts_at.length = line.ll_tokens.length ∧
        x.ends_at.length = line.ll_tokens.length ∧ Consistent x) a' := by
    refine foldlM_except_pres
      (fun x : LLLineAttrs => x.starts_at.length = line.ll_tokens.length ∧
        x.ends_at.length = line.ll_tokens.length ∧ Consistent x)
      vs _ line.attrs a' ?_ ⟨hg.1.1, hg.1.2, hg.2⟩ ha
    intro a0 v a1 _ hP h1
    obtain ⟨hl1, hl2⟩ := LLLineAttrs.insert_lengths h1
    exact ⟨hl1.trans hP.1, hl2.trans hP.2.1, hP.2.2.insert h1⟩
  exact ⟨⟨hfold.1, hfold.2.1⟩, hfold.2.2⟩

theorem good_run {line line' : LLLine} {R : Resolver}
    (hg : WellFormed line ∧ Consistent line.attrs)
    (h : line.run R = Except.ok line') :
    WellFormed line' ∧ Consistent line'.attrs := by
  by_cases hemp : line.ll_tokens = []
  · rw [LLLine.run_empty R hemp] at h
    injection h with h2
    subst h2
    exact hg
  · rw [LLLine.run_eq_of_ne R hemp] at h
    exact foldlM_except_pres _ _ _ line line'
      (fun l x l' _ hP h1 => good_insertAttr hP h1) hg h

/-- Every reachable line is well formed and its store is consistent. -/
theorem reachable_good {line : LLLine} (h : Reachable line) :
    WellFormed line ∧ Consistent line.attrs := by
  induction h with
  | construct toks line h => exact good_new h
  | insertStep line r v line' _ h ih => exact good_insertAttr ih h
  | addAnyStep line s e vs line' _ h ih => exact good_add_any ih h
  | runStep line R line' _ h ih => exact good_run ih h

/-! What the auto-annotating loop puts into the store. -/

theorem inRanges_insert_self {a : LLLineAttrs} {r : LRange} {v : AttrValue} {a' : LLLineAttrs}
    (h : a.insert r v = Except.ok a') : inRanges a' v.type_id r :=
  (inRanges_insert h _ _).mpr (Or.inr ⟨rfl, rfl⟩)

theorem memValue_insert_self {a : LLLineAttrs} {r : LRange} {v : AttrValue} {a' : LLLineAttrs}
    (h : a.insert r v = Except.ok a') :
    ∃ b, bucketFor a'.values r = some b ∧ v ∈ b.values := by
  obtain ⟨s, e, hs, he, rfl⟩ := LLLineAttrs.insert_eq_ok h
  refine ⟨_, bucketFor_insertValueAt_self a.values r v, ?_⟩
  exact List.mem_append.mpr (Or.inr (by simp))

theorem memValue_insert_mono {a : LLLineAttrs} {r : LRange} {v : AttrValue} {a' : LLLineAttrs}
    (h : a.insert r v = Except.ok a') (r0 : LRange) (v0 : AttrValue)
    (hm : ∃ b, bucketFor a.values r0 = some b ∧ v0 ∈ b.values) :
    ∃ b, bucketFor a'.values r0 = some b ∧ v0 ∈ b.values := by
  obtain ⟨s, e, hs, he, rfl⟩ := LLLineAttrs.insert_eq_ok h
  obtain ⟨b, hb, hv⟩ := hm
  by_cases hr : r0 = r
  · subst hr
    refine ⟨_, bucketFor_insertValueAt_self a.values r0 v, ?_⟩
    show v0 ∈ ((bucketFor a.values r0).getD ⟨[]⟩).values ++ [v]
    rw [hb, Option.getD_some]
    exact List.mem_append.mpr (Or.inl hv)
  · refine ⟨b, ?_, hv⟩
    show bucketFor (insertValueAt a.values r v) r0 = some b
    rw [bucketFor_insertValueAt_ne _ _ _ _ hr]
    exact hb

theorem insert_untouched {a : LLLineAttrs} {r0 : LRange} {v : AttrValue} {a' : LLLineAttrs}
    (h : a.insert r0 v = Except.ok a') (r : LRange) (hne : r ≠ r0) :
    bucketFor a'.values r = bucketFor a.values r ∧
    ∀ T, ((T, r) ∈ a'.ranges.entries ↔ (T, r) ∈ a.ranges.entries) := by
  obtain ⟨s, e, hs, he, rfl⟩ := LLLineAttrs.insert_eq_ok h
  constructor
  · exact bucketFor_insertValueAt_ne _ _ _ _ hne
  · intro T
    show (T, r) ∈ (a.ranges.insert_any_distinct v.type_id r0).entries ↔ _
    rw [TypeIdToMany.mem_insert_any_distinct]
    constructor
    · rintro (hh | heq)
      · exact hh
      · exact absurd (congrArg Prod.snd heq) hne
    · exact Or.inl

theorem autoInsert_untouched {a a1 : LLLineAttrs} {idx : Nat} {tok : LToken}
    (h : autoInsert a idx tok = Except.ok a1) (r : LRange) (hne : r ≠ (idx, idx)) :
    bucketFor a1.values r = bucketFor a.values r ∧
    ∀ T, ((T, r) ∈ a1.ranges.entries ↔ (T, r) ∈ a.ranges.entries) := by
  cases tok with
  | Value =>
    injection h with h2
    subst h2
    exact ⟨rfl, fun T => Iff.rfl⟩
  | Text text tag =>
    unfold autoInsert at h
    cases text with
    | nil =>
      have h' : a.insert (idx, idx) (.tag tag) = Except.ok a1 := h
      exact insert_untouched h' r hne
    | cons c cs =>
      cases cs with
      | nil =>
        have h0 : (do
            let amid ← a.insert (idx, idx) (.char c)
            amid.insert (idx, idx) (.tag tag)) = Except.ok a1 := h
        cases hc : a.insert (idx, idx) (.char c) with
        | error s =>
          rw [hc] at h0
          simp [Bind.bind, Except.bind] at h0
        | ok amid =>
          rw [hc] at h0
          have h2 : amid.insert (idx, idx) (.tag tag) = Except.ok a1 := h0
          obtain ⟨u1, u2⟩ := insert_untouched hc r hne
          obtain ⟨w1, w2⟩ := insert_untouched h2 r hne
          exact ⟨w1.trans u1, fun T => (w2 T).trans (u2 T)⟩
      | cons c2 cs2 =>
        have h' : a.insert (idx, idx) (.tag tag) = Except.ok a1 := h
        exact insert_untouched h' r hne

theorem autoFold_mono_inRanges {toks : List LLToken} {idx : Nat} {a a' : LLLineAttrs}
    (h : autoFold a idx toks = Except.ok a') (T : AttrType) (r : LRange)
    (hm : inRanges a T r) : inRanges a' T r :=
  autoFold_pres (fun x => inRanges x T r)
    (fun _ _ _ _ hP h1 => (inRanges_insert h1 T r).mpr (Or.inl hP))
    toks idx a a' hm h

theorem autoFold_mono_value {toks : List LLToken} {idx : Nat} {a a' : LLLineAttrs}
    (h : autoFold a idx toks = Except.ok a') (r0 : LRange) (v0 : AttrValue)
    (hm : ∃ b, bucketFor a.values r0 = some b ∧ v0 ∈ b.values) :
    ∃ b, bucketFor a'.values r0 = some b ∧ v0 ∈ b.values :=
  autoFold_pres (fun x => ∃ b, bucketFor x.values r0 = some b ∧ v0 ∈ b.values)
    (fun _ _ _ _ hP h1 => memValue_insert_mono h1 r0 v0 hP)
    toks idx a a' hm h

theorem autoFold_untouched :
    ∀ (toks : List LLToken) (idx : Nat) (a a' : LLLineAttrs),
      autoFold a idx toks = Except.ok a' →
      ∀ r : LRange, (∀ i, idx ≤ i → r ≠ (i, i)) →
        bucketFor a'.values r = bucketFor a.values r ∧
        ∀ T, ((T, r) ∈ a'.ranges.entries ↔ (T, r) ∈ a.ranges.entries) := by
  intro toks
  induction toks with
  | nil =>
    intro idx a a' h r _
    unfold autoFold at h
    injection h with h2
    subst h2
    exact ⟨rfl, fun T => Iff.rfl⟩
  | cons t ts ih =>
    intro idx a a' h r hr
    unfold autoFold at h
    cases h1 : autoInsert a idx t.token with
    | error s =>
      rw [h1] at h
      simp [Bind.bind, Except.bind] at h
    | ok a1 =>
      rw [h1] at h
      have h' : autoFold a1 (idx + 1) ts = Except.ok a' := h
      obtain ⟨u1, u2⟩ := autoInsert_untouched h1 r (hr idx le_rfl)
      obtain ⟨w1, w2⟩ := ih (idx + 1) a1 a' h' r (fun i hi => hr i (by omega))
      exact ⟨w1.trans u1, fun T => (w2 T).trans (u2 T)⟩

theorem autoFold_text_mem :
    ∀ (toks : List LLToken) (idx : Nat) (a a' : LLLineAttrs),
      autoFold a idx toks = Except.ok a' →
      ∀ n t, toks[n]? = some t → ∀ text tag, t.token = LToken.Text text tag →
        (inRanges a' AttrType.tagT (idx + n, idx + n) ∧
          ∃ b, bucketFor a'.values (idx + n, idx + n) = some b ∧
            AttrValue.tag tag ∈ b.values) ∧
        (∀ c, text = [c] →
          inRanges a' AttrType.charT (idx + n, idx + n) ∧
          ∃ b, bucketFor a'.values (idx + n, idx + n) = some b ∧
            AttrValue.char c ∈ b.values) := by
  intro toks
  induction toks with
  | nil =>
    intro idx a a' h n t ht
    simp at ht
  | cons t0 ts ih =>
    intro idx a a' h n t ht text tag htok
    unfold autoFold at h
    cases h1 : autoInsert a idx t0.token with
    | error s =>
      rw [h1] at h
      simp [Bind.bind, Except.bind] at h
    | ok a1 =>
      rw [h1] at h
      have h' : autoFold a1 (idx + 1) ts = Except.ok a' := h
      cases n with
      | zero =>
        have ht0 : t0 = t := by simpa using ht
        subst ht0
        rw [htok] at h1
        unfold autoInsert at h1
        simp only [Nat.add_zero]
        cases text with
        | nil =>
          have h2 : a.insert (idx, idx) (.tag tag) = Except.ok a1 := h1
          refine ⟨⟨autoFold_mono_inRanges h' _ _ (inRanges_insert_self h2),
            autoFold_mono_value h' _ _ (memValue_insert_self h2)⟩, ?_⟩
          intro c hc
          exact absurd hc (by simp)
        | cons c0 cs =>
          cases cs with
          | nil =>
            have h0 : (do
                let amid ← a.insert (idx, idx) (.char c0)
                amid.insert (idx, idx) (.tag tag)) = Except.ok a1 := h1
            cases hc1 : a.insert (idx, idx) (.char c0) with
            | error s =>
              rw [hc1] at h0
              simp [Bind.bind, Except.bind] at h0
            | ok amid =>
              rw [hc1] at h0
              have h2 : amid.insert (idx, idx) (.tag tag) = Except.ok a1 := h0
              refine ⟨⟨autoFold_mono_inRanges h' _ _ (inRanges_insert_self h2),
                autoFold_mono_value h' _ _ (memValue_insert_self h2)⟩, ?_⟩
              intro c hc
              have hc2 : c0 = c := by simpa using hc
              subst hc2
              have hchar : inRanges amid AttrType.charT (idx, idx) :=
                inRanges_insert_self hc1
              have hcharv : ∃ b, bucketFor amid.values (idx, idx) = some b ∧
                  AttrValue.char c0 ∈ b.values := memValue_insert_self hc1
              refine ⟨autoFold_mono_inRanges h' _ _
                ((inRanges_insert h2 _ _).mpr (Or.inl hchar)),
                autoFold_mono_value h' _ _ (memValue_insert_mono h2 _ _ hcharv)⟩
          | cons c2 cs2 =>
            have h2 : a.insert (idx, idx) (.tag tag) = Except.ok a1 := h1
            refine ⟨⟨autoFold_mono_inRanges h' _ _ (inRanges_insert_self h2),
              autoFold_mono_value h' _ _ (memValue_insert_self h2)⟩, ?_⟩
            intro c hc
            exact absurd hc (by simp)
      | succ m =>
        have ht' : ts[m]? = some t := by simpa using ht
        have hres := ih (idx + 1) a1 a' h' m t ht' text tag htok
        have harith : idx + 1 + m = idx + (m + 1) := by omega
        rw [harith] at hres
        exact hres

theorem autoFold_value_none :
    ∀ (toks : List LLToken) (idx : Nat) (a a' : LLLineAttrs),
      autoFold a idx toks = Except.ok a' →
      ∀ n t, toks[n]? = some t → t.token = LToken.Value →
        bucketFor a.values (idx + n, idx + n) = none →
        (∀ T, (T, (idx + n, idx + n)) ∉ a.ranges.entries) →
        bucketFor a'.values (idx + n, idx + n) = none ∧
        ∀ T, (T, (idx + n, idx + n)) ∉ a'.ranges.entries := by
  intro toks
  induction toks with
  | nil =>
    intro idx a a' h n t ht
    simp at ht
  | cons t0 ts ih =>
    intro idx a a' h n t ht htok hbnone hrnone
    unfold autoFold at h
    cases h1 : autoInsert a idx t0.token with
    | error s =>
      rw [h1] at h
      simp [Bind.bind, Except.bind] at h
    | ok a1 =>
      rw [h1] at h
      have h' : autoFold a1 (idx + 1) ts = Except.ok a' := h
      cases n with
      | zero =>
        have ht0 : t0 = t := by simpa using ht
        subst ht0
        rw [htok] at h1
        have ha1 : a1 = a := by
          injection h1 with h2
          exact h2.symm
        subst ha1
        simp only [Nat.add_zero] at hbnone hrnone
        simp only [Nat.add_zero]
        obtain ⟨u1, u2⟩ := autoFold_untouched ts (idx + 1) a1 a' h' (idx, idx)
          (fun i hi heq => by
            have : idx = i := congrArg Prod.fst heq
            omega)
        exact ⟨u1.trans hbnone, fun T hT => hrnone T ((u2 T).mp hT)⟩
      | succ m =>
        have ht' : ts[m]? = some t := by simpa using ht
        have hne : ((idx + (m + 1) : Nat), (idx + (m + 1) : Nat)) ≠ (idx, idx) := by
          intro heq
          have : idx + (m + 1) = idx := congrArg Prod.fst heq
          omega
        obtain ⟨u1, u2⟩ := autoInsert_untouched h1 (idx + (m + 1), idx + (m + 1)) hne
        have hres := ih (idx + 1) a1 a' h' m t ht' htok
          (by rw [show idx + 1 + m = idx + (m + 1) by omega]; exact u1.trans hbnone)
          (by
            rw [show idx + 1 + m = idx + (m + 1) by omega]
            exact fun T hT => hrnone T ((u2 T).mp hT))
        rw [show idx + 1 + m = idx + (m + 1) by omega] at hres
        exact hres

/-! Query characterization. -/

/-- The bucket of a range, defaulting to empty (only used on the
spec side of equations; the code side panics instead). -/
def bucketD (vs : List (LRange × TypeBucket)) (r : LRange) : TypeBucket :=
  (bucketFor vs r).getD ⟨[]⟩

/-- The substring of the line covered by a range: concatenated texts of
the covered tokens, a `Value` token contributing the empty string. -/
def spanText (line : LLLine) (r : LRange) : List Char :=
  (((line.ll_tokens.drop r.1).take (r.2 + 1 - r.1)).map (fun t => tokenText t.token)).flatten

theorem mapM_eq_ok_of_forall {α β : Type} (f : α → Except String β) (g : α → β) :
    ∀ (l : List α), (∀ x ∈ l, f x = Except.ok (g x)) → l.mapM f = Except.ok (l.map g) := by
  intro l
  induction l with
  | nil => intro _; rfl
  | cons x xs ih =>
    intro hall
    rw [List.mapM_cons, hall x (List.mem_cons_self _ _),
      ih (fun y hy => hall y (List.mem_cons_of_mem _ hy))]
    rfl

/-- On any line whose recorded ranges under `T` are in bounds, ordered,
and backed by a value bucket, `query` succeeds and returns exactly one
entry per recorded range, in index order. -/
theorem query_eq_of_bounded (line : LLLine) (T : AttrType)
    (hb : ∀ r ∈ line.attrs.ranges.get T, r.1 ≤ r.2 + 1 ∧ r.2 < line.ll_tokens.length ∧
      (bucketFor line.attrs.values r).isSome = true) :
    line.query T = Except.ok ((line.attrs.ranges.get T).map
      (fun r => (r, spanText line r, (bucketD line.attrs.values r).get T))) := by
  unfold LLLine.query
  apply mapM_eq_ok_of_forall
  intro r hr
  obtain ⟨h1, h2, h3⟩ := hb r hr
  have hslice : sliceIncl line.ll_tokens r.1 r.2 =
      Except.ok ((line.ll_tokens.drop r.1).take (r.2 + 1 - r.1)) := by
    unfold sliceIncl
    rw [if_pos ⟨h1, by omega⟩]
  obtain ⟨b, hbk⟩ := Option.isSome_iff_exists.mp h3
  show (do
      let toks ← sliceIncl line.ll_tokens r.1 r.2
      let text := (toks.map (fun t : LLToken => tokenText t.token)).flatten
      match bucketFor line.attrs.values r with
      | some b => Except.ok (r, text, b.get T)
      | none => Except.error "no entry found for key") = _
  rw [hslice]
  show (match bucketFor line.attrs.values r with
      | some b => Except.ok (r, spanText line r, b.get T)
      | none => Except.error "no entry found for key") = _
  rw [hbk]
  simp [bucketD, hbk]

/-- Querying a type with no recorded range returns the empty list. -/
theorem query_empty_of_no_range (line : LLLine) (T : AttrType)
    (h : line.attrs.ranges.get T = []) : line.query T = Except.ok [] := by
  unfold LLLine.query
  rw [h]
  rfl

/-! Bounded reachability: construction followed by resolvers whose
assignments all stay inside `[0, len - 1]` with ordered endpoints. -/

/-- Every recorded range is ordered and ends inside the token sequence. -/
def RangesBounded (line : LLLine) : Prop :=
  ∀ T r, inRanges line.attrs T r → r.1 ≤ r.2 ∧ r.2 < line.ll_tokens.length

/-- Lines built by `LLLine::new` followed by any number of `run` passes
whose resolvers only ever assign ranges `(s, e)` with `s ≤ e ≤ len - 1`. -/
inductive ReachableB : LLLine → Prop where
  | construct (toks : List LLToken) (line : LLLine) :
      LLLine.new toks = Except.ok line → ReachableB line
  | runStep (line : LLLine) (R : Resolver) (line' : LLLine) :
      ReachableB line →
      (∀ asg ∈ R.go { ll_line := line, start_idx := 0, end_idx := line.ll_tokens.length - 1 },
        asg.start_idx ≤ asg.end_idx ∧ asg.end_idx < line.ll_tokens.length) →
      line.run R = Except.ok line' → ReachableB line'

theorem ReachableB.reachable {line : LLLine} (h : ReachableB line) : Reachable line := by
  induction h with
  | construct toks line h => exact Reachable.construct toks line h
  | runStep line R line' _ _ h ih => exact Reachable.runStep line R line' ih h

/-- In a freshly constructed line every recorded range is a singleton
`(i, i)` with `i` inside the token sequence. -/
theorem new_ranges_diag {toks : List LLToken} {line : LLLine}
    (h : LLLine.new toks = Except.ok line) :
    ∀ T r, inRanges line.attrs T r → r.1 = r.2 ∧ r.2 < line.ll_tokens.length := by
  obtain ⟨a, ha, rfl⟩ := LLLine.new_eq_ok h
  have hfold :
      (fun x : LLLineAttrs => (∀ T r, (T, r) ∈ x.ranges.entries →
          r.1 = r.2 ∧ r.2 < x.starts_at.length) ∧
        x.starts_at.length = toks.length) a := by
    refine autoFold_pres
      (fun x : LLLineAttrs => (∀ T r, (T, r) ∈ x.ranges.entries →
          r.1 = r.2 ∧ r.2 < x.starts_at.length) ∧
        x.starts_at.length = toks.length)
      ?_ toks 0 (initAttrs toks.length) a ⟨by simp [initAttrs], by simp [initAttrs]⟩ ha
    intro a0 i v a1 hP h1
    obtain ⟨hl1, _⟩ := LLLineAttrs.insert_lengths h1
    refine ⟨?_, hl1.trans hP.2⟩
    intro T r hr
    rcases (inRanges_insert h1 T r).mp hr with hold | ⟨_, rfl⟩
    · obtain ⟨he, hlt⟩ := hP.1 T r hold
      exact ⟨he, by rw [hl1]; exact hlt⟩
    · obtain ⟨s, e, hs, _, _⟩ := LLLineAttrs.insert_eq_ok h1
      exact ⟨rfl, by rw [hl1]; exact (List.getElem?_eq_some.mp hs).1⟩
  intro T r hr
  obtain ⟨he, hlt⟩ := hfold.1 T r hr
  exact ⟨he, by rw [← hfold.2]; exact hlt⟩

theorem reachableB_bounded {line : LLLine} (h : ReachableB line) : RangesBounded line := by
  induction h with
  | construct toks line h =>
    intro T r hr
    obtain ⟨he, hlt⟩ := new_ranges_diag h T r hr
    exact ⟨he.le, hlt⟩
  | runStep line R line' _ hbnd hrun ih =>
    by_cases hemp : line.ll_tokens = []
    · rw [LLLine.run_empty R hemp] at hrun
      injection hrun with h2
      subst h2
      exact ih
    · rw [LLLine.run_eq_of_ne R hemp] at hrun
      have hfold :
          (fun l : LLLine => RangesBounded l ∧ l.ll_tokens = line.ll_tokens) line' := by
        refine foldlM_except_pres
          (fun l : LLLine => RangesBounded l ∧ l.ll_tokens = line.ll_tokens)
          _ _ line line' ?_ ⟨ih, rfl⟩ hrun
        intro l asg l' hmem hP h1
        obtain ⟨a', ha, rfl⟩ := LLLine.insertAttr_eq_ok h1
        refine ⟨?_, hP.2⟩
        intro T r hr
        rcases (inRanges_insert ha T r).mp hr with hold | ⟨_, rfl⟩
        · exact hP.1 T r hold
        · obtain ⟨hb1, hb2⟩ := hbnd asg hmem
          show asg.start_idx ≤ asg.end_idx ∧ asg.end_idx < l.ll_tokens.length
          rw [hP.2]
          exact ⟨hb1, hb2⟩
      exact hfold.1

/-! Effect of one insertion on the value bucket, and index-entry counts. -/

/-- Insertion appends the value to the range's bucket: earlier values
are kept, the new value goes last. -/
theorem bucketD_insert_self {a : LLLineAttrs} {r : LRange} {v : AttrValue} {a' : LLLineAttrs}
    (h : a.insert r v = Except.ok a') :
    (bucketD a'.values r).values = (bucketD a.values r).values ++ [v] := by
  obtain ⟨s, e, hs, he, rfl⟩ := LLLineAttrs.insert_eq_ok h
  show (bucketD (insertValueAt a.values r v) r).values = _
  unfold bucketD
  rw [bucketFor_insertValueAt_self]
  rfl

/-- Insertion leaves every other range's bucket untouched. -/
theorem bucketFor_insert_ne {a : LLLineAttrs} {r : LRange} {v : AttrValue} {a' : LLLineAttrs}
    (h : a.insert r v = Except.ok a') (r' : LRange) (hne : r' ≠ r) :
    bucketFor a'.values r' = bucketFor a.values r' :=
  (insert_untouched h r' hne).1

theorem count_insert_any_distinct_zero {m : TypeIdToMany} {tid : AttrType} {r : LRange}
    (h : m.entries.count (tid, r) = 0) :
    (m.insert_any_distinct tid r).entries.count (tid, r) = 1 := by
  have hnm : (tid, r) ∉ m.entries := List.count_eq_zero.mp h
  simp [TypeIdToMany.insert_any_distinct, if_neg hnm, List.count_append, h]

theorem count_insert_any_distinct_mem {m : TypeIdToMany} {tid : AttrType} {r : LRange}
    (h : (tid, r) ∈ m.entries) :
    (m.insert_any_distinct tid r).entries.count (tid, r) = m.entries.count (tid, r) := by
  simp [TypeIdToMany.insert_any_distinct, if_pos h]

/-! Concrete lines and resolvers used to witness the theorems. -/

/-- The spec §8 example tokens: `"7"` then `"!"`. -/
def exToks : List LLToken :=
  [{ token_idx := 0, pos_starts_at := 0, pos_ends_at := 1, token := .Text ['7'] .NATN },
   { token_idx := 1, pos_starts_at := 1, pos_ends_at := 2, token := .Text ['!'] .PUNC }]

/-- Fallback line for `Option.getD` extraction of `Except` results. -/
def defaultLine : LLLine :=
  { ll_tokens := [], attrs := { ranges := ⟨[]⟩, starts_at := [], ends_at := [], values := [] } }

/-- The line built from `exToks`. -/
def exLine : LLLine := ((LLLine.new exToks).toOption).getD defaultLine

/-- The empty line. -/
def emptyLine : LLLine := ((LLLine.new []).toOption).getD defaultLine

/-- A resolver that would assign an attribute at `(0, 0)` if consulted. -/
def noisyResolver : Resolver := ⟨fun _ => [⟨0, 0, .custom 3 1⟩]⟩

/-- An attribute recorded in a consistent, bounded store shows up in the
corresponding `query` result. -/
theorem queryable_of_mem {line : LLLine} (T : AttrType) (r : LRange)
    (hdiag : ∀ T' r', inRanges line.attrs T' r' →
      r'.1 ≤ r'.2 ∧ r'.2 < line.ll_tokens.length)
    (hcons : Consistent line.attrs)
    (hr : inRanges line.attrs T r) (v : AttrValue)
    (hbv : ∃ b, bucketFor line.attrs.values r = some b ∧ v ∈ b.values)
    (hv : v.type_id = T) :
    ∃ res, line.query T = Except.ok res ∧ ∃ e2, e2 ∈ res ∧ e2.1 = r ∧ v ∈ e2.2.2 := by
  have hb : ∀ r' ∈ line.attrs.ranges.get T, r'.1 ≤ r'.2 + 1 ∧
      r'.2 < line.ll_tokens.length ∧
      (bucketFor line.attrs.values r').isSome = true := by
    intro r' hr'
    have hin : inRanges line.attrs T r' := (TypeIdToMany.mem_get _ _ _).mp hr'
    obtain ⟨h1, h2⟩ := hdiag T r' hin
    refine ⟨by omega, h2, ?_⟩
    obtain ⟨b, hbk, _⟩ := ((hcons T r').2.2).mp hin
    rw [hbk]
    rfl
  refine ⟨_, query_eq_of_bounded line T hb, ?_⟩
  obtain ⟨b, hbk, hvb⟩ := hbv
  refine ⟨(r, spanText line r, (bucketD line.attrs.values r).get T), ?_, rfl, ?_⟩
  · exact List.mem_map.mpr ⟨r, (TypeIdToMany.mem_get _ _ _).mpr hr, rfl⟩
  · show v ∈ (bucketD line.attrs.values r).get T
    unfold bucketD TypeBucket.get
    rw [hbk, Option.getD_some, List.mem_filter]
    exact ⟨hvb, by simp [hv]⟩

/-! The claims. -/

/-- C1: four-index consistency invariant. For every line reachable via
`LLLine::new` followed by any sequence of attribute insertions
(auto-annotation, run merging, `add_any_attrs`), an attribute of type `T`
exists on range `r = (s, e)` iff `T` appears under `r` in the global
`ranges` index, under `r` in `starts_at[s]`, under `r` in `ends_at[e]`,
and a value of type `T` is present in `values[r]`; no insertion path
leaves a partial update. -/
theorem c1_four_index_consistency (line : LLLine) (h : Reachable line) :
    Consistent line.attrs :=
  (reachable_good h).2

/-- Witness for C1: the invariant at the concrete two-token line. -/
theorem c1_four_index_consistency_witness : Consistent exLine.attrs :=
  c1_four_index_consistency exLine (Reachable.construct exToks exLine (by rfl))

/-- C2: auto-annotation at construction. `LLLine::new` allocates one
`starts_at` and one `ends_at` slot per token; every one-character text
token gets its character inserted on `(i, i)`, every text token gets its
classification tag inserted on `(i, i)`, opaque `Value` tokens get
nothing; the auto-inserted characters and tags are queryable immediately
after construction, before any resolver runs. -/
theorem c2_auto_annotation (toks : List LLToken) (line : LLLine)
    (h : LLLine.new toks = Except.ok line) :
    line.ll_tokens = toks ∧
    line.attrs.starts_at.length = toks.length ∧
    line.attrs.ends_at.length = toks.length ∧
    ∀ n t, toks[n]? = some t →
      (∀ text tag, t.token = LToken.Text text tag →
        (inRanges line.attrs AttrType.tagT (n, n) ∧
          (∃ b, bucketFor line.attrs.values (n, n) = some b ∧
            AttrValue.tag tag ∈ b.values) ∧
          (∃ res, line.query AttrType.tagT = Except.ok res ∧
            ∃ e2, e2 ∈ res ∧ e2.1 = (n, n) ∧ AttrValue.tag tag ∈ e2.2.2)) ∧
        (∀ c, text = [c] →
          inRanges line.attrs AttrType.charT (n, n) ∧
          (∃ b, bucketFor line.attrs.values (n, n) = some b ∧
            AttrValue.char c ∈ b.values) ∧
          (∃ res, line.query AttrType.charT = Except.ok res ∧
            ∃ e2, e2 ∈ res ∧ e2.1 = (n, n) ∧ AttrValue.char c ∈ e2.2.2))) ∧
      (t.token = LToken.Value →
        bucketFor line.attrs.values (n, n) = none ∧
        ∀ T, ¬ inRanges line.attrs T (n, n)) := by
  have hgood := good_new h
  have hdiag := new_ranges_diag h
  have hdiag' : ∀ T' r', inRanges line.attrs T' r' →
      r'.1 ≤ r'.2 ∧ r'.2 < line.ll_tokens.length :=
    fun T' r' hin => ⟨(hdiag T' r' hin).1.le, (hdiag T' r' hin).2⟩
  obtain ⟨a, ha, rfl⟩ := LLLine.new_eq_ok h
  refine ⟨rfl, hgood.1.1, hgood.1.2, ?_⟩
  intro n t ht
  constructor
  · intro text tag htok
    have hmem := autoFold_text_mem toks 0 _ a ha n t ht text tag htok
    simp only [Nat.zero_add] at hmem
    obtain ⟨⟨htag_r, htag_v⟩, hchar⟩ := hmem
    refine ⟨⟨htag_r, htag_v, ?_⟩, ?_⟩
    · exact queryable_of_mem AttrType.tagT (n, n) hdiag' hgood.2 htag_r
        (AttrValue.tag tag) htag_v rfl
    · intro c hc
      obtain ⟨hc_r, hc_v⟩ := hchar c hc
      refine ⟨hc_r, hc_v, ?_⟩
      exact queryable_of_mem AttrType.charT (n, n) hdiag' hgood.2 hc_r
        (AttrValue.char c) hc_v rfl
  · intro htok
    have hres := autoFold_value_none toks 0 _ a ha n t ht htok
      (by rfl) (by intro T; simp [initAttrs])
    simp only [Nat.zero_add] at hres
    exact ⟨hres.1, fun T hT => hres.2 T hT⟩

/-- Witness for C2 at the concrete two-token line. -/
theorem c2_auto_annotation_witness :
    exLine.ll_tokens = exToks ∧
    exLine.attrs.starts_at.length = exToks.length ∧
    exLine.attrs.ends_at.length = exToks.length ∧
    ∀ n t, exToks[n]? = some t →
      (∀ text tag, t.token = LToken.Text text tag →
        (inRanges exLine.attrs AttrType.tagT (n, n) ∧
          (∃ b, bucketFor exLine.attrs.values (n, n) = some b ∧
            AttrValue.tag tag ∈ b.values) ∧
          (∃ res, exLine.query AttrType.tagT = Except.ok res ∧
            ∃ e2, e2 ∈ res ∧ e2.1 = (n, n) ∧ AttrValue.tag tag ∈ e2.2.2)) ∧
        (∀ c, text = [c] →
          inRanges exLine.attrs AttrType.charT (n, n) ∧
          (∃ b, bucketFor exLine.attrs.values (n, n) = some b ∧
            AttrValue.char c ∈ b.values) ∧
          (∃ res, exLine.query AttrType.charT = Except.ok res ∧
            ∃ e2, e2 ∈ res ∧ e2.1 = (n, n) ∧ AttrValue.char c ∈ e2.2.2))) ∧
      (t.token = LToken.Value →
        bucketFor exLine.attrs.values (n, n) = none ∧
        ∀ T, ¬ inRanges exLine.attrs T (n, n)) :=
  c2_auto_annotation exToks exLine (by rfl)

/-- C5: `run` on an empty line is a no-op. It returns the line unchanged
without consulting the resolver (the result does not depend on the
resolver at all). -/
theorem c5_empty_run_noop (line : LLLine) (R : Resolver) (h : line.ll_tokens = []) :
    line.run R = Except.ok line :=
  LLLine.run_empty R h

/-- Witness for C5: the empty line with a resolver that would assign an
attribute if it were consulted. -/
theorem c5_empty_run_noop_witness :
    emptyLine.ll_tokens = [] ∧ emptyLine.run noisyResolver = Except.ok emptyLine :=
  ⟨rfl, c5_empty_run_noop emptyLine noisyResolver rfl⟩

/-- C6: `query<T>()` postcondition. Whenever every range recorded under
`T` is a valid ordered span inside the token sequence with a backing
bucket (the store invariant maintained during normal operation), the
query returns one entry per recorded range, in the range index's
insertion order, pairing the range, the concatenated covered text (a
`Value` token contributing the empty string), and every value of type `T`
in that range's bucket; and for a type with no recorded range it returns
the empty list, never an error. -/
theorem c6_query_postcondition (line : LLLine) (T : AttrType) :
    ((∀ r ∈ line.attrs.ranges.get T, r.1 ≤ r.2 + 1 ∧ r.2 < line.ll_tokens.length ∧
        (bucketFor line.attrs.values r).isSome = true) →
      line.query T = Except.ok ((line.attrs.ranges.get T).map
        (fun r => (r, spanText line r, (bucketD line.attrs.values r).get T)))) ∧
    (line.attrs.ranges.get T = [] → line.query T = Except.ok []) :=
  ⟨query_eq_of_bounded line T, query_empty_of_no_range line T⟩

/-- Witness for C6: the two-token line, queried for the auto-inserted
tags and for a type never inserted. -/
theorem c6_query_postcondition_witness :
    exLine.query AttrType.tagT = Except.ok ((exLine.attrs.ranges.get AttrType.tagT).map
      (fun r => (r, spanText exLine r, (bucketD exLine.attrs.values r).get AttrType.tagT))) ∧
    exLine.query (AttrType.customT 99) = Except.ok [] :=
  ⟨(c6_query_postcondition exLine AttrType.tagT).1 (by decide),
   (c6_query_postcondition exLine (AttrType.customT 99)).2 (by decide)⟩

/-- C10: query panic-freedom under the store invariant. For every line
built by `LLLine::new` followed by runs of resolvers whose assignments
all satisfy `0 ≤ start_idx ≤ end_idx ≤ len - 1`, every range recorded in
the global `ranges` index is ordered, ends inside the token sequence and
has an entry in the `values` map, so the slice indexing and map indexing
inside `query<T>()` never fail, for any type `T`. -/
theorem c10_query_panic_free (line : LLLine) (h : ReachableB line) :
    (∀ T r, inRanges line.attrs T r →
      r.1 ≤ r.2 ∧ r.2 < line.ll_tokens.length ∧
        (bucketFor line.attrs.values r).isSome = true) ∧
    (∀ T, ∃ res, line.query T = Except.ok res) := by
  have hbnd := reachableB_bounded h
  have hcons := (reachable_good h.reachable).2
  constructor
  · intro T r hr
    obtain ⟨h1, h2⟩ := hbnd T r hr
    refine ⟨h1, h2, ?_⟩
    obtain ⟨b, hbk, _⟩ := ((hcons T r).2.2).mp hr
    rw [hbk]
    rfl
  · intro T
    refine ⟨_, query_eq_of_bounded line T ?_⟩
    intro r hrg
    have hr := (TypeIdToMany.mem_get _ _ _).mp hrg
    obtain ⟨h1, h2⟩ := hbnd T r hr
    refine ⟨by omega, h2, ?_⟩
    obtain ⟨b, hbk, _⟩ := ((hcons T r).2.2).mp hr
    rw [hbk]
    rfl

/-- Witness for C10 at the concrete two-token line. -/
theorem c10_query_panic_free_witness :
    (∀ T r, inRanges exLine.attrs T r →
      r.1 ≤ r.2 ∧ r.2 < exLine.ll_tokens.length ∧
        (bucketFor exLine.attrs.values r).isSome = true) ∧
    (∀ T, ∃ res, exLine.query T = Except.ok res) :=
  c10_query_panic_free exLine (ReachableB.construct exToks exLine (by rfl))

/-- Merging a list of pending assignments, in order, through the same
insertion path as auto-annotation (the fold inside `LLLine::run`). -/
def mergeAssignments (assignments : List LLCursorAssignment) (line : LLLine) :
    Except String LLLine :=
  assignments.foldlM (fun l a => l.insertAttr (a.start_idx, a.end_idx) a.value) line

/-- A resolver that assigns the same custom attribute type twice on
range `(0, 0)`, to exercise accumulation. -/
def accumResolver : Resolver := ⟨fun _ => [⟨0, 0, .custom 1 5⟩, ⟨0, 0, .custom 1 6⟩]⟩

/-- C3: resolver merge semantics. On a non-empty line, `run` hands the
resolver a selection spanning `(0, len - 1)` and merges each returned
pending assignment, in the order produced, through the same insertion
path as auto-annotation; and each insertion appends to the target range's
value bucket, leaving earlier values of that range and all other ranges'
buckets intact — attributes accumulate, nothing is overwritten. -/
theorem c3_resolver_merge (line : LLLine) (R : Resolver) (hne : line.ll_tokens ≠ []) :
    line.run R = mergeAssignments
      (R.go { ll_line := line, start_idx := 0, end_idx := line.ll_tokens.length - 1 })
      line ∧
    (∀ (l : LLLine) (r : LRange) (v : AttrValue) (l' : LLLine),
      l.insertAttr r v = Except.ok l' →
      (bucketD l'.attrs.values r).values = (bucketD l.attrs.values r).values ++ [v] ∧
      ∀ r', r' ≠ r → bucketFor l'.attrs.values r' = bucketFor l.attrs.values r') := by
  constructor
  · exact LLLine.run_eq_of_ne R hne
  · intro l r v l' h1
    obtain ⟨a', ha, rfl⟩ := LLLine.insertAttr_eq_ok h1
    exact ⟨bucketD_insert_self ha, fun r' hne2 => bucketFor_insert_ne ha r' hne2⟩

/-- Witness for C3: the two-token line with a resolver that assigns the
same attribute type twice on one range. -/
theorem c3_resolver_merge_witness :
    exLine.run accumResolver = mergeAssignments
      (accumResolver.go
        { ll_line := exLine, start_idx := 0, end_idx := exLine.ll_tokens.length - 1 })
      exLine ∧
    (∀ (l : LLLine) (r : LRange) (v : AttrValue) (l' : LLLine),
      l.insertAttr r v = Except.ok l' →
      (bucketD l'.attrs.values r).values = (bucketD l.attrs.values r).values ++ [v] ∧
      ∀ r', r' ≠ r → bucketFor l'.attrs.values r' = bucketFor l.attrs.values r') :=
  c3_resolver_merge exLine accumResolver (by decide)

/-- Starting character position of the token at an index (total form,
used on the specification side of the `find` equation). -/
def posStartD (line : LLLine) (i : Nat) : Nat :=
  ((line.ll_tokens[i]?).map LLToken.pos_starts_at).getD 0

/-- Ending character position of the token at an index (total form). -/
def posEndD (line : LLLine) (i : Nat) : Nat :=
  ((line.ll_tokens[i]?).map LLToken.pos_ends_at).getD 0

/-- C7: `find` postcondition. A forward cursor is anchored at every token
index `0 .. len - 1` in order; every `(value, next_idx)` pair the matcher
yields is collected (all ambiguous/overlapping matches), and each result
spans from the character position where token `i` starts to the character
position where token `next_idx` ends. Stated for matchers that keep
`next_idx` inside the line (the matcher contract). -/
theorem c7_find_postcondition {Out : Type} (line : LLLine)
    (matcher : Nat → LLLine → List (Out × Nat))
    (hm : ∀ i, i < line.ll_tokens.length →
      ∀ p ∈ matcher i line, p.2 < line.ll_tokens.length) :
    line.find matcher = Except.ok
      (((List.range line.ll_tokens.length).map (fun i =>
        (matcher i line).map (fun p =>
          ({ start_pos_at := posStartD line i, end_pos_at := posEndD line p.2,
             found := p.1 } : LLLineFind Out)))).flatten) := by
  unfold LLLine.find
  have houter : (List.range line.ll_tokens.length).mapM (fun i =>
      (matcher i line).mapM (fun p => do
        let s ← line.pos_start_at i
        let e ← line.pos_end_at p.2
        Except.ok ({ start_pos_at := s, end_pos_at := e, found := p.1 } : LLLineFind Out))) =
      Except.ok ((List.range line.ll_tokens.length).map (fun i =>
        (matcher i line).map (fun p =>
          ({ start_pos_at := posStartD line i, end_pos_at := posEndD line p.2,
             found := p.1 } : LLLineFind Out)))) := by
    apply mapM_eq_ok_of_forall
    intro i hi
    have hilt : i < line.ll_tokens.length := List.mem_range.mp hi
    apply mapM_eq_ok_of_forall
    intro p hp
    have hplt : p.2 < line.ll_tokens.length := hm i hilt p hp
    have hti : line.ll_tokens[i]? = some line.ll_tokens[i] := List.getElem?_eq_getElem hilt
    have htp : line.ll_tokens[p.2]? = some line.ll_tokens[p.2] :=
      List.getElem?_eq_getElem hplt
    show (do
        let s ← line.pos_start_at i
        let e ← line.pos_end_at p.2
        Except.ok ({ start_pos_at := s, end_pos_at := e, found := p.1 } : LLLineFind Out)) = _
    unfold LLLine.pos_start_at LLLine.pos_end_at
    rw [hti, htp]
    unfold posStartD posEndD
    rw [hti, htp]
    rfl
  rw [houter]
  rfl

/-- A matcher that yields one match from token index `0` ending at
token index `1`, and nothing elsewhere. -/
def exMatcher : Nat → LLLine → List (Nat × Nat) :=
  fun i _ => if i = 0 then [(5, 1)] else []

/-- Witness for C7 at the concrete two-token line. -/
theorem c7_find_postcondition_witness :
    exLine.find exMatcher = Except.ok
      (((List.range exLine.ll_tokens.length).map (fun i =>
        (exMatcher i exLine).map (fun p =>
          ({ start_pos_at := posStartD exLine i, end_pos_at := posEndD exLine p.2,
             found := p.1 } : LLLineFind Nat)))).flatten) :=
  c7_find_postcondition exLine exMatcher (by decide)

/-- A resolver returning a single inverted-but-in-bounds assignment
`(start_idx, end_idx) = (1, 0)`. -/
def invertedResolver : Resolver := ⟨fun _ => [⟨1, 0, .custom 7 0⟩]⟩

/-- Building the two-token line and running the inverted resolver. -/
def invertedRun : Except String LLLine := do
  let line ← LLLine.new exToks
  line.run invertedResolver

/-- Counterexample to C8 as stated: an assignment with
`start_idx > end_idx` but both endpoints inside `[0, len - 1]` does NOT
abort — the merge step accepts it and records the inverted range in the
global index. -/
theorem c8_counterexample :
    invertedRun.isOk = true ∧
    (AttrType.customT 7, ((1 : Nat), (0 : Nat))) ∈
      (invertedRun.toOption.getD defaultLine).attrs.ranges.entries := by
  constructor
  · rfl
  · decide

/-- C8 (amended): out-of-bounds resolver assignments are fatal. On any
reachable line, applying an insertion whose `start_idx` is outside
`[0, len - 1]` aborts with the `starts_at` bounds diagnostic; one whose
`start_idx` is in bounds but whose `end_idx` is outside aborts with the
`ends_at` bounds diagnostic; and when both endpoints are inside
`[0, len - 1]` the insertion succeeds even if `start_idx > end_idx` —
the ordering of the endpoints alone is never checked. -/
theorem c8_out_of_range_abort (line : LLLine) (h : Reachable line)
    (r : LRange) (v : AttrValue) :
    (line.ll_tokens.length ≤ r.1 →
      line.insertAttr r v = Except.error "has initial starts_at value in bounds") ∧
    (r.1 < line.ll_tokens.length → line.ll_tokens.length ≤ r.2 →
      line.insertAttr r v = Except.error "has initial ends_at value in bounds") ∧
    (r.1 < line.ll_tokens.length → r.2 < line.ll_tokens.length →
      ∃ line', line.insertAttr r v = Except.ok line') := by
  obtain ⟨⟨hl1, hl2⟩, _⟩ := reachable_good h
  refine ⟨?_, ?_, ?_⟩
  · intro hge
    unfold LLLine.insertAttr
    rw [LLLineAttrs.insert_starts_oob (by rw [hl1]; exact hge)]
    rfl
  · intro hlt hge
    have hslt : r.1 < line.attrs.starts_at.length := by rw [hl1]; exact hlt
    have hs : line.attrs.starts_at[r.1]? = some line.attrs.starts_at[r.1] :=
      List.getElem?_eq_getElem hslt
    unfold LLLine.insertAttr
    rw [LLLineAttrs.insert_ends_oob hs (by rw [hl2]; exact hge)]
    rfl
  · intro h1 h2
    have hslt : r.1 < line.attrs.starts_at.length := by rw [hl1]; exact h1
    have helt : r.2 < line.attrs.ends_at.length := by rw [hl2]; exact h2
    have hs : line.attrs.starts_at[r.1]? = some line.attrs.starts_at[r.1] :=
      List.getElem?_eq_getElem hslt
    have he : line.attrs.ends_at[r.2]? = some line.attrs.ends_at[r.2] :=
      List.getElem?_eq_getElem helt
    exact ⟨_, LLLine.insertAttr_of_ok (LLLineAttrs.insert_of_some hs he)⟩

/-- Witness for the amended C8: out-of-bounds start, out-of-bounds end,
and an in-bounds inverted range on the concrete two-token line. -/
theorem c8_out_of_range_abort_witness :
    (exLine.insertAttr (5, 0) (.custom 2 0) =
      Except.error "has initial starts_at value in bounds") ∧
    (exLine.insertAttr (0, 5) (.custom 2 0) =
      Except.error "has initial ends_at value in bounds") ∧
    (∃ line', exLine.insertAttr (1, 0) (.custom 2 0) = Except.ok line') :=
  ⟨(c8_out_of_range_abort exLine (Reachable.construct exToks exLine (by rfl))
      (5, 0) (.custom 2 0)).1 (by decide),
   (c8_out_of_range_abort exLine (Reachable.construct exToks exLine (by rfl))
      (0, 5) (.custom 2 0)).2.1 (by decide) (by decide),
   (c8_out_of_range_abort exLine (Reachable.construct exToks exLine (by rfl))
      (1, 0) (.custom 2 0)).2.2 (by decide) (by decide)⟩

/-- C9: index-entry idempotence. Inserting an attribute of the same type
on the same range twice leaves exactly one index entry for that
`(type, range)` pair in each of the `ranges`, `starts_at` and `ends_at`
indexes, while the range's values bucket grows by one value per
insertion — values are appended, never deduplicated. -/
theorem c9_index_idempotence (a a1 a2 : LLLineAttrs) (T : AttrType) (r : LRange)
    (v1 v2 : AttrValue) (s0 e0 : TypeIdToMany)
    (hT1 : v1.type_id = T) (hT2 : v2.type_id = T)
    (hs0 : a.starts_at[r.1]? = some s0) (he0 : a.ends_at[r.2]? = some e0)
    (h0r : a.ranges.entries.count (T, r) = 0)
    (h0s : s0.entries.count (T, r) = 0)
    (h0e : e0.entries.count (T, r) = 0)
    (h1 : a.insert r v1 = Except.ok a1) (h2 : a1.insert r v2 = Except.ok a2) :
    a2.ranges.entries.count (T, r) = 1 ∧
    (∃ m, a2.starts_at[r.1]? = some m ∧ m.entries.count (T, r) = 1) ∧
    (∃ m, a2.ends_at[r.2]? = some m ∧ m.entries.count (T, r) = 1) ∧
    (bucketD a2.values r).values.length = (bucketD a.values r).values.length + 2 := by
  obtain ⟨s, e, hs, he, ha1⟩ := LLLineAttrs.insert_eq_ok h1
  obtain rfl : s0 = s := Option.some.inj (hs0.symm.trans hs)
  obtain rfl : e0 = e := Option.some.inj (he0.symm.trans he)
  obtain ⟨s1, e1, hs1, he1, ha2⟩ := LLLineAttrs.insert_eq_ok h2
  have hlen_s : r.1 < a.starts_at.length := (List.getElem?_eq_some.mp hs0).1
  have hlen_e : r.2 < a.ends_at.length := (List.getElem?_eq_some.mp he0).1
  have ha1s : a1.starts_at[r.1]? = some (s0.insert_any_distinct v1.type_id r) := by
    rw [ha1]
    exact List.getElem?_set_eq_of_lt _ hlen_s
  have ha1e : a1.ends_at[r.2]? = some (e0.insert_any_distinct v1.type_id r) := by
    rw [ha1]
    exact List.getElem?_set_eq_of_lt _ hlen_e
  obtain rfl : s1 = s0.insert_any_distinct v1.type_id r :=
    Option.some.inj (hs1.symm.trans ha1s)
  obtain rfl : e1 = e0.insert_any_distinct v1.type_id r :=
    Option.some.inj (he1.symm.trans ha1e)
  have hlen1_s : r.1 < a1.starts_at.length := (List.getElem?_eq_some.mp ha1s).1
  have hlen1_e : r.2 < a1.ends_at.length := (List.getElem?_eq_some.mp ha1e).1
  refine ⟨?_, ?_, ?_, ?_⟩
  · have hmem : (T, r) ∈ (a.ranges.insert_any_distinct T r).entries :=
      (TypeIdToMany.mem_insert_any_distinct _ _ _ _).mpr (Or.inr rfl)
    have hranges : a2.ranges = (a.ranges.insert_any_distinct T r).insert_any_distinct T r := by
      rw [ha2, ha1, hT1, hT2]
    rw [hranges, count_insert_any_distinct_mem hmem]
    exact count_insert_any_distinct_zero h0r
  · have hmem : (T, r) ∈ (s0.insert_any_distinct T r).entries :=
      (TypeIdToMany.mem_insert_any_distinct _ _ _ _).mpr (Or.inr rfl)
    refine ⟨(s0.insert_any_distinct v1.type_id r).insert_any_distinct v2.type_id r, ?_, ?_⟩
    · rw [ha2]
      exact List.getElem?_set_eq_of_lt _ hlen1_s
    · rw [hT1, hT2, count_insert_any_distinct_mem hmem]
      exact count_insert_any_distinct_zero h0s
  · have hmem : (T, r) ∈ (e0.insert_any_distinct T r).entries :=
      (TypeIdToMany.mem_insert_any_distinct _ _ _ _).mpr (Or.inr rfl)
    refine ⟨(e0.insert_any_distinct v1.type_id r).insert_any_distinct v2.type_id r, ?_, ?_⟩
    · rw [ha2]
      exact List.getElem?_set_eq_of_lt _ hlen1_e
    · rw [hT1, hT2, count_insert_any_distinct_mem hmem]
      exact count_insert_any_distinct_zero h0e
  · rw [bucketD_insert_self h2, bucketD_insert_self h1]
    simp

/-- The `starts_at[0]` slot of the concrete line. -/
def c9S0 : TypeIdToMany := (exLine.attrs.starts_at[0]?).getD ⟨[]⟩

/-- The `ends_at[1]` slot of the concrete line. -/
def c9E0 : TypeIdToMany := (exLine.attrs.ends_at[1]?).getD ⟨[]⟩

/-- The concrete store after one insertion of `custom 4` on `(0, 1)`. -/
def c9A1 : LLLineAttrs :=
  ((exLine.attrs.insert (0, 1) (.custom 4 0)).toOption).getD (initAttrs 0)

/-- The concrete store after a second insertion of `custom 4` on `(0, 1)`. -/
def c9A2 : LLLineAttrs :=
  ((c9A1.insert (0, 1) (.custom 4 1)).toOption).getD (initAttrs 0)

/-- Witness for C9: two insertions of the custom type `4` on range
`(0, 1)` of the concrete line. -/
theorem c9_index_idempotence_witness :
    c9A2.ranges.entries.count (AttrType.customT 4, ((0 : Nat), (1 : Nat))) = 1 ∧
    (∃ m, c9A2.starts_at[(((0 : Nat), (1 : Nat)) : LRange).1]? = some m ∧
      m.entries.count (AttrType.customT 4, ((0 : Nat), (1 : Nat))) = 1) ∧
    (∃ m, c9A2.ends_at[(((0 : Nat), (1 : Nat)) : LRange).2]? = some m ∧
      m.entries.count (AttrType.customT 4, ((0 : Nat), (1 : Nat))) = 1) ∧
    (bucketD c9A2.values (0, 1)).values.length =
      (bucketD exLine.attrs.values (0, 1)).values.length + 2 :=
  c9_index_idempotence exLine.attrs c9A1 c9A2 (AttrType.customT 4) (0, 1)
    (.custom 4 0) (.custom 4 1) c9S0 c9E0 rfl rfl (by rfl) (by rfl)
    (by decide) (by decide) (by decide) (by rfl) (by rfl)
